import Mathlib

/-!
# Verification of the wordtris word-list generators

Shallow embedding of `src/create_word_definitions.py` and
`src/create_enhanced_word_definitions.py`.

Python strings are modelled as `List Char` (`W`).  The per-character
operations `str.lower`, `str.strip`, `str.isalpha` are modelled over the
ASCII range (the range the corpus words live in): `Char.toLower` lowers
exactly the basic latin letters, `Char.isWhitespace` covers the blank
characters stripped by Python, `Char.isAlpha` the latin letters.

The WordNet synset database is a parameter `synsets : W → List W` mapping a
word to the list of definitions of its synsets, so that
`get_word_definition` returns the head of that list, mirroring
`wn.synsets(word)[0].definition()`.  The `random.shuffle` calls are
modelled by quantifying over the shuffled list (an arbitrary permutation
of the filtered pool); concrete runs instantiate it with one permutation.
The CSV writer serialises the computed row list unchanged, so each
generator is modelled by the list of `(word, definition)` rows it writes
after the header.
-/

/-- A Python string: a list of characters. -/
abbrev W := List Char

/-- An output row `(word, definition)`. -/
abbrev Row := W × W

/-- Python `str.lower()`: lower-case every character. -/
def py_lower (w : W) : W := w.map Char.toLower

/-- Python `str.strip()`: drop whitespace from both ends. -/
def py_strip (w : W) : W :=
  ((w.dropWhile Char.isWhitespace).reverse.dropWhile Char.isWhitespace).reverse

/-- Python `str.isalpha()`: non-empty and all characters alphabetic. -/
def py_isalpha (w : W) : Bool := !w.isEmpty && w.all Char.isAlpha

/-- Python truthiness of an optional string (`if definition:`):
`None` and the empty string are falsy. -/
def py_truthy : Option W → Bool
  | none => false
  | some d => !d.isEmpty

/-- `clean_word` (both scripts, identical):
`word = word.lower().strip()`; keep it iff `word.isalpha() and len(word) >= 3`. -/
def clean_word (w : W) : Option W :=
  let w2 := py_strip (py_lower w)
  if py_isalpha w2 && decide (3 ≤ w2.length) then some w2 else none

/-- `get_word_definition` (both scripts): first definition of the synset
list, `None` when there is none. -/
def get_word_definition (synsets : W → List W) (w : W) : Option W :=
  (synsets w).head?

/-- The word-keyed sort order used by `word_definitions.sort(key=lambda x: x[0])`:
compare rows by their word, lexicographically by character code. -/
def rowLe (a b : Row) : Prop := a.1 ≤ b.1

instance : DecidableRel rowLe := fun a b => inferInstanceAs (Decidable (a.1 ≤ b.1))

instance : IsTotal Row rowLe := ⟨fun a b => le_total a.1 b.1⟩

instance : IsTrans Row rowLe := ⟨fun _ _ _ h1 h2 => le_trans h1 h2⟩

/-- `word_definitions.sort(key=lambda x: x[0])`: stable sort of the rows by
word.  (Ties can only be between identical rows here, so any stable sort
computes Python's result.) -/
def sortRows (rows : List Row) : List Row := rows.insertionSort rowLe

/-- Loop body of `create_word_definition_csv` for one word: clean it, look
up a definition, and keep `(cleaned_word, definition)` iff the definition
is truthy (`if definition:`). -/
def cwdc_row (synsets : W → List W) (w : W) : Option Row :=
  match clean_word w with
  | none => none
  | some cw =>
    let d := get_word_definition synsets cw
    if py_truthy d then some (cw, d.getD []) else none

/-- Loop body of `create_words_by_length_csv` (and of the per-length loop
of `create_combined_length_csv`) for one word: clean it, additionally
require `len(cleaned_word) == target_length`, then keep it iff the
definition is truthy. -/
def cwblc_row (synsets : W → List W) (target_length : Nat) (w : W) : Option Row :=
  match clean_word w with
  | none => none
  | some cw =>
    if cw.length = target_length then
      let d := get_word_definition synsets cw
      if py_truthy d then some (cw, d.getD []) else none
    else none

/-- Loop body of `create_enhanced_words_by_length_csv` for one word:
clean it, require the exact target length, then keep a stopword
unconditionally with `definition or ""`, and a non-stopword iff its
definition is truthy. -/
def enh_row (synsets : W → List W) (stop_words : List W) (target_length : Nat)
    (w : W) : Option Row :=
  match clean_word w with
  | none => none
  | some cw =>
    if cw.length = target_length then
      if cw ∈ stop_words then some (cw, (get_word_definition synsets cw).getD [])
      else if py_truthy (get_word_definition synsets cw) then
        some (cw, (get_word_definition synsets cw).getD [])
      else none
    else none

/-- The accumulation loop shared verbatim by all three generator
functions: walk the candidate list in order, stop (`break`) as soon as
`len(word_definitions) >= max_words`, otherwise append the row produced
for the current word, if any. -/
def selectLoop (row : W → Option Row) (maxW : Nat) (acc : List Row) : List W → List Row
  | [] => acc
  | w :: rest =>
    if maxW ≤ acc.length then acc
    else
      match row w with
      | some r => selectLoop row maxW (acc ++ [r]) rest
      | none => selectLoop row maxW acc rest

/-- Candidate filter of `create_word_definition_csv`:
`[w for w in english_words if min_length <= len(w) <= max_length and w.isalpha()]`
(no lower-casing at this stage). -/
def cwdc_filtered (english_words : List W) (min_length max_length : Nat) : List W :=
  english_words.filter fun w =>
    decide (min_length ≤ w.length) && decide (w.length ≤ max_length) && py_isalpha w

/-- Rows written by `create_word_definition_csv` after the header, as a
function of the shuffled filtered word list.  Note: this generator does
NOT sort before writing. -/
def create_word_definition_rows (synsets : W → List W) (max_words : Nat)
    (shuffled : List W) : List Row :=
  selectLoop (cwdc_row synsets) max_words [] shuffled

/-- Candidate filter of `create_words_by_length_csv`:
`[w.lower() for w in english_words if len(w) == target_length and w.isalpha()]`
(lower-casing is applied after this length filter). -/
def cwblc_filtered (english_words : List W) (target_length : Nat) : List W :=
  (english_words.filter fun w => decide (w.length = target_length) && py_isalpha w).map py_lower

/-- Rows written by `create_words_by_length_csv` after the header, as a
function of the shuffled filtered word list: truncate the shuffled list to
`max_words_per_length * 2` candidates, run the selection loop, then sort
alphabetically. -/
def create_words_by_length_rows (synsets : W → List W)
    (target_length max_words_per_length : Nat) (shuffled : List W) : List Row :=
  sortRows (selectLoop (cwblc_row synsets target_length) max_words_per_length []
    (shuffled.take (max_words_per_length * 2)))

/-- Rows written by `create_combined_length_csv`: for each length 3..8 the
per-length block repeats the body of `create_words_by_length_csv`
(shuffle, truncate to `max_words_per_length * 2`, select, sort within the
length) and the blocks are concatenated. -/
def create_combined_rows (synsets : W → List W) (max_words_per_length : Nat)
    (shuffles : Nat → List W) : List Row :=
  ((List.range' 3 6).map fun t =>
    create_words_by_length_rows synsets t max_words_per_length (shuffles t)).flatten

/-- `get_comprehensive_word_list` with a `target_length`: the set union of
the lower-cased alphabetic corpus words and the raw stopwords of the
target length, finally filtered to the target length.  The Python set is
modelled as a duplicate-free list (`dedup`); its iteration order is
irrelevant because the caller shuffles the list. -/
def get_comprehensive_word_list (english_words stop_words : List W)
    (target_length : Nat) : List W :=
  (((english_words.filter py_isalpha).map py_lower)
      ++ stop_words.filter fun w => decide (w.length = target_length)).dedup.filter
    fun w => decide (w.length = target_length)

/-- The selection sequence of `create_enhanced_words_by_length_csv` in the
order words are appended (before the final sort). -/
def enhanced_selection (synsets : W → List W) (stop_words : List W)
    (target_length max_words_per_length : Nat) (shuffled : List W) : List Row :=
  selectLoop (enh_row synsets stop_words target_length) max_words_per_length [] shuffled

/-- Rows written by `create_enhanced_words_by_length_csv` after the
header: the selection sequence sorted alphabetically by word.  (No
truncation to `max_words_per_length * 2` in this variant.) -/
def create_enhanced_rows (synsets : W → List W) (stop_words : List W)
    (target_length max_words_per_length : Nat) (shuffled : List W) : List Row :=
  sortRows (enhanced_selection synsets stop_words target_length max_words_per_length shuffled)

/-- A small concrete synset database for concrete runs: `cat` and `dog`
have one definition each, every other word has none. -/
def demoSyn : W → List W := fun w =>
  if w = "cat".data then ["a feline".data]
  else if w = "dog".data then ["a canine".data]
  else []

-- sanity checks of the embedding on concrete inputs
example : clean_word " Cat ".data = some "cat".data := by decide
example : clean_word "ab".data = none := by decide
example : clean_word "a1c".data = none := by decide
example : cwblc_filtered ["Cat".data, "cat".data] 3 = ["cat".data, "cat".data] := by decide
example : create_words_by_length_rows demoSyn 3 2 ["cat".data, "dog".data] =
    [("cat".data, "a feline".data), ("dog".data, "a canine".data)] := by decide
example : create_enhanced_rows demoSyn ["the".data] 3 5 ["cat".data, "the".data] =
    [("cat".data, "a feline".data), ("the".data, [])] := by decide
example : get_comprehensive_word_list ["cat".data] ["the".data] 3 =
    ["cat".data, "the".data] := by decide
example : create_word_definition_rows demoSyn 1000 ["dog".data, "cat".data] =
    [("dog".data, "a canine".data), ("cat".data, "a feline".data)] := by decide

/-! ## Helper lemmas -/

theorem char_toLower_idem (c : Char) : c.toLower.toLower = c.toLower := by
  by_cases h : 65 ≤ c.toNat ∧ c.toNat ≤ 90
  · have h1 : c.toLower = Char.ofNat (c.toNat + 32) := by
      simp only [Char.toLower]
      rw [if_pos]
      exact ⟨h.1, h.2⟩
    rw [h1]
    obtain ⟨h65, h90⟩ := h
    set n := c.toNat with hn
    interval_cases n <;> decide
  · have h1 : c.toLower = c := by
      simp only [Char.toLower]
      rw [if_neg]
      simpa using h
    rw [h1, h1]

theorem mem_py_strip {c : Char} {w : W} (h : c ∈ py_strip w) : c ∈ w := by
  unfold py_strip at h
  rw [List.mem_reverse] at h
  have h2 := (List.dropWhile_sublist (l := (w.dropWhile Char.isWhitespace).reverse)
    (p := Char.isWhitespace)).subset h
  rw [List.mem_reverse] at h2
  exact (List.dropWhile_sublist (l := w) (p := Char.isWhitespace)).subset h2

theorem py_lower_py_strip_py_lower (w : W) :
    py_lower (py_strip (py_lower w)) = py_strip (py_lower w) := by
  have hmem : ∀ c ∈ py_strip (py_lower w), c.toLower = c := by
    intro c hc
    have hw : c ∈ py_lower w := mem_py_strip hc
    obtain ⟨c', _, hc'⟩ := List.mem_map.1 hw
    rw [← hc']
    exact char_toLower_idem c'
  calc py_lower (py_strip (py_lower w))
      = (py_strip (py_lower w)).map id := List.map_congr_left hmem
    _ = py_strip (py_lower w) := List.map_id _

theorem clean_word_iff (w cw : W) :
    clean_word w = some cw ↔
      cw = py_strip (py_lower w) ∧ py_isalpha cw = true ∧ 3 ≤ cw.length := by
  have hdef : clean_word w =
      if py_isalpha (py_strip (py_lower w)) && decide (3 ≤ (py_strip (py_lower w)).length)
      then some (py_strip (py_lower w)) else none := rfl
  rw [hdef]
  by_cases hc : (py_isalpha (py_strip (py_lower w))
      && decide (3 ≤ (py_strip (py_lower w)).length)) = true
  · rw [if_pos hc]
    simp only [Bool.and_eq_true, decide_eq_true_eq] at hc
    constructor
    · intro h
      cases h
      exact ⟨rfl, hc.1, hc.2⟩
    · rintro ⟨rfl, _, _⟩
      rfl
  · rw [if_neg hc]
    simp only [Bool.and_eq_true, decide_eq_true_eq] at hc
    constructor
    · intro h
      exact absurd h (by simp)
    · rintro ⟨rfl, ha, hl⟩
      exact absurd ⟨ha, hl⟩ hc

theorem clean_word_props {w cw : W} (h : clean_word w = some cw) :
    py_isalpha cw = true ∧ 3 ≤ cw.length ∧ py_lower cw = cw := by
  obtain ⟨rfl, ha, hl⟩ := (clean_word_iff w cw).1 h
  exact ⟨ha, hl, py_lower_py_strip_py_lower w⟩

theorem selectLoop_eq_filterMap (row : W → Option Row) (maxW : Nat) :
    ∀ (l : List W) (acc : List Row), acc.length + l.length ≤ maxW →
      selectLoop row maxW acc l = acc ++ l.filterMap row := by
  intro l
  induction l with
  | nil => intro acc _; simp [selectLoop]
  | cons w rest ih =>
    intro acc h
    rw [List.length_cons] at h
    have hacc : ¬ (maxW ≤ acc.length) := by omega
    cases hr : row w with
    | some r =>
      simp only [selectLoop, if_neg hacc, hr]
      rw [ih (acc ++ [r]) (by rw [List.length_append, List.length_cons, List.length_nil]; omega)]
      simp [List.filterMap_cons, hr]
    | none =>
      simp only [selectLoop, if_neg hacc, hr]
      rw [ih acc (by omega)]
      simp [List.filterMap_cons, hr]

theorem selectLoop_sublist (row : W → Option Row) (maxW : Nat) :
    ∀ (l : List W) (acc : List Row),
      List.Sublist (selectLoop row maxW acc l) (acc ++ l.filterMap row) := by
  intro l
  induction l with
  | nil => intro acc; simp [selectLoop]
  | cons w rest ih =>
    intro acc
    by_cases hacc : maxW ≤ acc.length
    · simp only [selectLoop, if_pos hacc]
      exact List.sublist_append_left acc _
    · cases hr : row w with
      | some r =>
        simp only [selectLoop, if_neg hacc, hr]
        rw [List.filterMap_cons, hr]
        have := ih (acc ++ [r])
        simpa [List.append_assoc] using this
      | none =>
        simp only [selectLoop, if_neg hacc, hr]
        rw [List.filterMap_cons, hr]
        exact ih acc

theorem selectLoop_mem {row : W → Option Row} {maxW : Nat} {l : List W} {p : Row}
    (h : p ∈ selectLoop row maxW [] l) : ∃ w ∈ l, row w = some p := by
  have hs := (selectLoop_sublist row maxW l []).subset h
  rw [List.nil_append] at hs
  obtain ⟨w, hw, hrow⟩ := List.mem_filterMap.1 hs
  exact ⟨w, hw, hrow⟩

theorem filterMap_sublist_of_imp {α β : Type} (f g : α → Option β)
    (h : ∀ a b, f a = some b → g a = some b) :
    ∀ l : List α, List.Sublist (l.filterMap f) (l.filterMap g) := by
  intro l
  induction l with
  | nil => simp
  | cons a rest ih =>
    rw [List.filterMap_cons, List.filterMap_cons]
    cases hf : f a with
    | some b => rw [h a b hf]; exact ih.cons₂ b
    | none =>
      cases hg : g a with
      | some c => exact ih.cons c
      | none => exact ih

theorem cwdc_row_some {synsets : W → List W} {w : W} {p : Row}
    (h : cwdc_row synsets w = some p) :
    clean_word w = some p.1 ∧ py_truthy (get_word_definition synsets p.1) = true ∧
      p.2 = (get_word_definition synsets p.1).getD [] := by
  cases hc : clean_word w with
  | none =>
    have hn : cwdc_row synsets w = none := by unfold cwdc_row; rw [hc]
    rw [hn] at h
    exact absurd h (by simp)
  | some cw =>
    have hrw : cwdc_row synsets w =
        if py_truthy (get_word_definition synsets cw) = true then
          some (cw, (get_word_definition synsets cw).getD []) else none := by
      unfold cwdc_row; rw [hc]
    rw [hrw] at h
    split at h
    · next ht => cases h; exact ⟨rfl, ht, rfl⟩
    · exact absurd h (by simp)

theorem cwblc_row_some {synsets : W → List W} {target_length : Nat} {w : W} {p : Row}
    (h : cwblc_row synsets target_length w = some p) :
    clean_word w = some p.1 ∧ p.1.length = target_length ∧
      py_truthy (get_word_definition synsets p.1) = true ∧
      p.2 = (get_word_definition synsets p.1).getD [] := by
  cases hc : clean_word w with
  | none =>
    have hn : cwblc_row synsets target_length w = none := by unfold cwblc_row; rw [hc]
    rw [hn] at h
    exact absurd h (by simp)
  | some cw =>
    have hrw : cwblc_row synsets target_length w =
        if cw.length = target_length then
          (if py_truthy (get_word_definition synsets cw) = true then
            some (cw, (get_word_definition synsets cw).getD []) else none)
        else none := by
      unfold cwblc_row; rw [hc]
    rw [hrw] at h
    split at h
    · next hlen =>
      split at h
      · next ht => cases h; exact ⟨rfl, hlen, ht, rfl⟩
      · exact absurd h (by simp)
    · exact absurd h (by simp)

theorem enh_row_some {synsets : W → List W} {stop_words : List W} {target_length : Nat}
    {w : W} {p : Row} (h : enh_row synsets stop_words target_length w = some p) :
    clean_word w = some p.1 ∧ p.1.length = target_length ∧
      p.2 = (get_word_definition synsets p.1).getD [] ∧
      (p.1 ∈ stop_words ∨ py_truthy (get_word_definition synsets p.1) = true) := by
  cases hc : clean_word w with
  | none =>
    have hn : enh_row synsets stop_words target_length w = none := by unfold enh_row; rw [hc]
    rw [hn] at h
    exact absurd h (by simp)
  | some cw =>
    have hrw : enh_row synsets stop_words target_length w =
        if cw.length = target_length then
          (if cw ∈ stop_words then some (cw, (get_word_definition synsets cw).getD [])
           else if py_truthy (get_word_definition synsets cw) = true then
             some (cw, (get_word_definition synsets cw).getD [])
           else none)
        else none := by
      unfold enh_row; rw [hc]
    rw [hrw] at h
    split at h
    · next hlen =>
      split at h
      · next hstop => cases h; exact ⟨rfl, hlen, rfl, Or.inl hstop⟩
      · next hstop =>
        split at h
        · next ht => cases h; exact ⟨rfl, hlen, rfl, Or.inr ht⟩
        · exact absurd h (by simp)
    · exact absurd h (by simp)

theorem sortRows_sorted (rows : List Row) : (sortRows rows).Pairwise rowLe :=
  List.sorted_insertionSort rowLe rows

theorem sortRows_perm (rows : List Row) : (sortRows rows).Perm rows :=
  List.perm_insertionSort rowLe rows

theorem map_fst_reconstruct (g : W → W) :
    ∀ l : List Row, (∀ p ∈ l, p.2 = g p.1) →
      l = (l.map Prod.fst).map fun w => (w, g w) := by
  intro l
  induction l with
  | nil => intro _; rfl
  | cons p rest ih =>
    intro h
    have hp : p.2 = g p.1 := h p (List.mem_cons_self p rest)
    have hrest := ih fun q hq => h q (List.mem_cons_of_mem p hq)
    calc p :: rest = (p.1, g p.1) :: rest := by rw [← hp]
    _ = ((p :: rest).map Prod.fst).map (fun w => (w, g w)) := by
        rw [List.map_cons, List.map_cons]
        exact congrArg _ hrest

theorem rows_eq_of_perm_of_sorted {g : W → W} {l₁ l₂ : List Row}
    (hg₁ : ∀ p ∈ l₁, p.2 = g p.1) (hg₂ : ∀ p ∈ l₂, p.2 = g p.1)
    (hp : l₁.Perm l₂) (hs₁ : l₁.Pairwise rowLe) (hs₂ : l₂.Pairwise rowLe) : l₁ = l₂ := by
  have hmap : ∀ a b : Row, rowLe a b → a.1 ≤ b.1 := fun _ _ hab => hab
  have hS₁ : (l₁.map Prod.fst).Pairwise (fun a b : W => a ≤ b) := hs₁.map Prod.fst hmap
  have hS₂ : (l₂.map Prod.fst).Pairwise (fun a b : W => a ≤ b) := hs₂.map Prod.fst hmap
  have hfst : l₁.map Prod.fst = l₂.map Prod.fst :=
    List.eq_of_perm_of_sorted (hp.map Prod.fst) hS₁ hS₂
  calc l₁ = (l₁.map Prod.fst).map (fun w => (w, g w)) := map_fst_reconstruct g l₁ hg₁
    _ = (l₂.map Prod.fst).map (fun w => (w, g w)) := by rw [hfst]
    _ = l₂ := (map_fst_reconstruct g l₂ hg₂).symm

theorem truthy_getD_ne_nil {o : Option W} (h : py_truthy o = true) : o.getD [] ≠ [] := by
  cases o with
  | none => exact absurd h (by simp [py_truthy])
  | some d =>
    cases d with
    | nil => exact absurd h (by simp [py_truthy])
    | cons c rest => simp

theorem selection_words_sublist_clean (row : W → Option Row)
    (hrow : ∀ w p, row w = some p → clean_word w = some p.1) (maxW : Nat) (l : List W) :
    List.Sublist ((selectLoop row maxW [] l).map Prod.fst) (l.filterMap clean_word) := by
  have h1 := selectLoop_sublist row maxW l []
  rw [List.nil_append] at h1
  have h2 := h1.map Prod.fst
  rw [List.map_filterMap] at h2
  refine h2.trans (filterMap_sublist_of_imp _ _ ?_ l)
  intro a b hb
  cases hr : row a with
  | none => rw [hr] at hb; exact absurd hb (by simp)
  | some p =>
    rw [hr] at hb
    simp only [Option.map_some'] at hb
    cases hb
    exact hrow a p hr

theorem cwdc_rows_mem {synsets : W → List W} {maxW : Nat} {sh : List W} {p : Row}
    (hp : p ∈ create_word_definition_rows synsets maxW sh) :
    (∃ w ∈ sh, clean_word w = some p.1) ∧
      py_truthy (get_word_definition synsets p.1) = true ∧
      p.2 = (get_word_definition synsets p.1).getD [] := by
  obtain ⟨w, hw, hrow⟩ := selectLoop_mem hp
  obtain ⟨hc, ht, hd⟩ := cwdc_row_some hrow
  exact ⟨⟨w, hw, hc⟩, ht, hd⟩

theorem cwblc_rows_mem {synsets : W → List W} {target_length maxW : Nat} {sh : List W}
    {p : Row} (hp : p ∈ create_words_by_length_rows synsets target_length maxW sh) :
    (∃ w ∈ sh.take (maxW * 2), clean_word w = some p.1) ∧ p.1.length = target_length ∧
      py_truthy (get_word_definition synsets p.1) = true ∧
      p.2 = (get_word_definition synsets p.1).getD [] := by
  have hsel : p ∈ selectLoop (cwblc_row synsets target_length) maxW []
      (sh.take (maxW * 2)) := (sortRows_perm _).mem_iff.1 hp
  obtain ⟨w, hw, hrow⟩ := selectLoop_mem hsel
  obtain ⟨hc, hl, ht, hd⟩ := cwblc_row_some hrow
  exact ⟨⟨w, hw, hc⟩, hl, ht, hd⟩

theorem enh_rows_mem {synsets : W → List W} {stop_words : List W}
    {target_length maxW : Nat} {sh : List W} {p : Row}
    (hp : p ∈ create_enhanced_rows synsets stop_words target_length maxW sh) :
    (∃ w ∈ sh, clean_word w = some p.1) ∧ p.1.length = target_length ∧
      p.2 = (get_word_definition synsets p.1).getD [] ∧
      (p.1 ∈ stop_words ∨ py_truthy (get_word_definition synsets p.1) = true) := by
  have hsel : p ∈ enhanced_selection synsets stop_words target_length maxW sh :=
    (sortRows_perm _).mem_iff.1 hp
  obtain ⟨w, hw, hrow⟩ := selectLoop_mem hsel
  obtain ⟨hc, hl, hd, hor⟩ := enh_row_some hrow
  exact ⟨⟨w, hw, hc⟩, hl, hd, hor⟩

/-! ## Claim theorems -/

/-- C1 (counterexample): the claim that every output CSV, including
`word_definitions.csv`, has its data rows in strictly ascending
alphabetical order by word is false: `create_word_definition_csv` never
sorts, so with the corpus `{dog, cat}` and the shuffle leaving the order
`[dog, cat]`, the written rows are `dog, cat` — not ascending. -/
theorem c1_word_definitions_unsorted_counterexample :
    cwdc_filtered ["dog".data, "cat".data] 3 8 = ["dog".data, "cat".data] ∧
    create_word_definition_rows demoSyn 1000 ["dog".data, "cat".data] =
      [("dog".data, "a canine".data), ("cat".data, "a feline".data)] ∧
    ¬ (create_word_definition_rows demoSyn 1000 ["dog".data, "cat".data]).Pairwise
        (fun a b : Row => a.1 < b.1) := by decide

/-- C1 (amended): the length-bucketed output files
(`create_words_by_length_csv`, the per-length blocks of
`create_combined_length_csv`, and `create_enhanced_words_by_length_csv`)
have their data rows in non-decreasing alphabetical order by word;
`word_definitions.csv` is written in selection (shuffled) order. -/
theorem c1_bucketed_outputs_sorted (synsets : W → List W) (stop_words : List W)
    (target_length maxW : Nat) (sh sh' : List W) :
    (create_words_by_length_rows synsets target_length maxW sh).Pairwise rowLe ∧
    (create_enhanced_rows synsets stop_words target_length maxW sh').Pairwise rowLe :=
  ⟨sortRows_sorted _, sortRows_sorted _⟩

/-- C2 (counterexample): the claim that no output file ever contains two
rows with the same word — for every corpus, including ones with the same
word in different letter cases — is false: `create_words_by_length_csv`
deduplicates the raw corpus (a set of raw strings) before lower-casing,
so corpus `{Cat, cat}` yields the candidate list `[cat, cat]` and two
identical `cat` rows. -/
theorem c2_duplicate_words_counterexample :
    cwblc_filtered ["Cat".data, "cat".data] 3 = ["cat".data, "cat".data] ∧
    create_words_by_length_rows demoSyn 3 2 ["cat".data, "cat".data] =
      [("cat".data, "a feline".data), ("cat".data, "a feline".data)] ∧
    ¬ ((create_words_by_length_rows demoSyn 3 2 ["cat".data, "cat".data]).map
        Prod.fst).Nodup := by decide

/-- C2 (amended): within one output file no word repeats, provided the
cleaned forms of the candidate words are pairwise distinct (as when the
corpus words are already lower-case); a corpus containing the same word
in different letter cases can defeat the set-based deduplication, which
happens before lower-casing. -/
theorem c2_words_nodup_of_clean_nodup (synsets : W → List W) (stop_words : List W)
    (target_length maxW : Nat) (sh₁ sh₂ sh₃ : List W)
    (h₁ : (sh₁.filterMap clean_word).Nodup)
    (h₂ : (sh₂.filterMap clean_word).Nodup)
    (h₃ : (sh₃.filterMap clean_word).Nodup) :
    ((create_word_definition_rows synsets maxW sh₁).map Prod.fst).Nodup ∧
    ((create_words_by_length_rows synsets target_length maxW sh₂).map Prod.fst).Nodup ∧
    ((create_enhanced_rows synsets stop_words target_length maxW sh₃).map Prod.fst).Nodup := by
  refine ⟨?_, ?_, ?_⟩
  · exact h₁.sublist (selection_words_sublist_clean _
      (fun w p hr => (cwdc_row_some hr).1) maxW sh₁)
  · have hpre : List.Sublist
        ((selectLoop (cwblc_row synsets target_length) maxW []
          (sh₂.take (maxW * 2))).map Prod.fst)
        (sh₂.filterMap clean_word) :=
      (selection_words_sublist_clean _
        (fun w p hr => (cwblc_row_some hr).1) maxW (sh₂.take (maxW * 2))).trans
        ((sh₂.take_sublist (maxW * 2)).filterMap clean_word)
    have hnodup := h₂.sublist hpre
    exact (((sortRows_perm _).map Prod.fst).nodup_iff).2 hnodup
  · have hpre : List.Sublist
        ((enhanced_selection synsets stop_words target_length maxW sh₃).map Prod.fst)
        (sh₃.filterMap clean_word) :=
      selection_words_sublist_clean _ (fun w p hr => (enh_row_some hr).1) maxW sh₃
    have hnodup := h₃.sublist hpre
    exact (((sortRows_perm _).map Prod.fst).nodup_iff).2 hnodup

/-- Witness for C2 (amended) at a concrete corpus with distinct cleaned
forms. -/
theorem c2_words_nodup_witness :
    ((["cat".data, "dog".data] : List W).filterMap clean_word).Nodup ∧
    ((create_word_definition_rows demoSyn 5 ["cat".data, "dog".data]).map Prod.fst).Nodup :=
  ⟨by decide, (c2_words_nodup_of_clean_nodup demoSyn ["the".data] 3 5
    ["cat".data, "dog".data] ["cat".data, "dog".data] ["cat".data, "dog".data]
    (by decide) (by decide) (by decide)).1⟩

/-- C5 (counterexample): the claim that `clean_word` accepts exactly the
raw tokens that are purely alphabetic — in particular that a token with
surrounding whitespace is rejected — is false: `clean_word` strips first
and validates afterwards, so `" cat "` is accepted as `cat` although the
raw token is not alphabetic. -/
theorem c5_whitespace_not_rejected_counterexample :
    clean_word " cat ".data = some "cat".data ∧ py_isalpha " cat ".data = false := by decide

/-- C5 (amended): `clean_word` returns the lower-cased, stripped form of
its input iff that normalized form (not the raw token) is purely
alphabetic and at least 3 characters long; otherwise it returns `None`.
Surrounding whitespace is trimmed rather than causing rejection. -/
theorem c5_clean_word_characterisation (w cw : W) :
    clean_word w = some cw ↔
      cw = py_strip (py_lower w) ∧ py_isalpha cw = true ∧ 3 ≤ cw.length :=
  clean_word_iff w cw

/-- C3 (counterexample): the claim that a qualifying stopword always
appears in the target-length file for every pool size and every shuffle
outcome is false: with pool `[cat, the]` (a shuffle of the comprehensive
list for length 3), stopword list `[the]` and `max_words_per_length = 1`,
the non-stopword `cat` fills the quota first and the loop breaks before
reaching `the`. -/
theorem c3_stopword_crowded_out_counterexample :
    get_comprehensive_word_list ["cat".data] ["the".data] 3 = ["cat".data, "the".data] ∧
    clean_word "the".data = some "the".data ∧
    ("the".data : W) ∈ (["the".data] : List W) ∧
    "the".data ∉ (create_enhanced_rows demoSyn ["the".data] 3 1
      ["cat".data, "the".data]).map Prod.fst := by decide

/-- C3 (amended): a stopword of the target length that is in the pool and
survives cleaning appears in the `create_enhanced_words_by_length_csv`
output whenever the target count is at least the number of shuffled
candidates (in particular whenever `max_words_per_length ≥` pool size);
with a smaller target count it can be crowded out by earlier-shuffled
words. -/
theorem c3_stopword_retained_when_pool_fits (synsets : W → List W) (stop_words : List W)
    (target_length maxW : Nat) (sh : List W) (w cw : W)
    (hm : sh.length ≤ maxW) (hw : w ∈ sh) (hc : clean_word w = some cw)
    (hl : cw.length = target_length) (hs : cw ∈ stop_words) :
    cw ∈ (create_enhanced_rows synsets stop_words target_length maxW sh).map Prod.fst := by
  have hfull : enhanced_selection synsets stop_words target_length maxW sh =
      sh.filterMap (enh_row synsets stop_words target_length) := by
    have h0 : ([] : List Row).length + sh.length ≤ maxW := by simpa using hm
    simpa using selectLoop_eq_filterMap (enh_row synsets stop_words target_length) maxW sh [] h0
  have hrow : enh_row synsets stop_words target_length w =
      some (cw, (get_word_definition synsets cw).getD []) := by
    unfold enh_row
    rw [hc]
    show (if cw.length = target_length then
        if cw ∈ stop_words then some (cw, (get_word_definition synsets cw).getD [])
        else if py_truthy (get_word_definition synsets cw) = true then
          some (cw, (get_word_definition synsets cw).getD [])
        else none
      else none) = some (cw, (get_word_definition synsets cw).getD [])
    rw [if_pos hl, if_pos hs]
  have hmem : (cw, (get_word_definition synsets cw).getD []) ∈
      enhanced_selection synsets stop_words target_length maxW sh := by
    rw [hfull]
    exact List.mem_filterMap.2 ⟨w, hw, hrow⟩
  have hrows : (cw, (get_word_definition synsets cw).getD []) ∈
      create_enhanced_rows synsets stop_words target_length maxW sh :=
    (sortRows_perm _).mem_iff.2 hmem
  exact List.mem_map.2 ⟨_, hrows, rfl⟩

/-- Witness for C3 (amended): with a target count of 5 ≥ pool size 2, the
stopword `the` (no definition in the database) appears in the output. -/
theorem c3_stopword_retained_witness :
    (["cat".data, "the".data] : List W).length ≤ 5 ∧
    "the".data ∈ (create_enhanced_rows demoSyn ["the".data] 3 5
      ["cat".data, "the".data]).map Prod.fst :=
  ⟨by decide, c3_stopword_retained_when_pool_fits demoSyn ["the".data] 3 5
    ["cat".data, "the".data] "the".data "the".data (by decide) (by decide)
    (by decide) (by decide) (by decide)⟩

/-- C4 (counterexample): the claim that selection in
`create_enhanced_words_by_length_csv` is stopwords-first — every
qualifying stopword included in the selected sequence before any
non-stopword — is false: with pool `[cat, the]` (a shuffle of the
comprehensive list), stopword list `[the]` and target count 2, the
selected sequence places the non-stopword `cat` before the stopword
`the`. -/
theorem c4_no_stopword_priority_counterexample :
    get_comprehensive_word_list ["cat".data] ["the".data] 3 = ["cat".data, "the".data] ∧
    enhanced_selection demoSyn ["the".data] 3 2 ["cat".data, "the".data] =
      [("cat".data, "a feline".data), ("the".data, [])] ∧
    "cat".data ∉ (["the".data] : List W) ∧
    ("the".data : W) ∈ (["the".data] : List W) := by decide

/-- C4 (amended): the variant applies no stopwords-first ordering: the
whole pool (stopwords included) is shuffled uniformly and scanned once,
so the selected words form a subsequence of the cleaned shuffled pool;
the only privilege of a stopword is exemption from the definition
requirement. -/
theorem c4_selection_is_uniform_pass (synsets : W → List W) (stop_words : List W)
    (target_length maxW : Nat) (sh : List W) (p : Row)
    (hp : p ∈ enhanced_selection synsets stop_words target_length maxW sh) :
    List.Sublist ((enhanced_selection synsets stop_words target_length maxW sh).map Prod.fst)
      (sh.filterMap clean_word) ∧
    (p.1 ∈ stop_words ∨ py_truthy (get_word_definition synsets p.1) = true) := by
  constructor
  · exact selection_words_sublist_clean _ (fun w q hr => (enh_row_some hr).1) maxW sh
  · obtain ⟨w, _, hrow⟩ := selectLoop_mem hp
    exact (enh_row_some hrow).2.2.2

/-- Witness for C4 (amended) at a concrete selected row. -/
theorem c4_selection_is_uniform_pass_witness :
    ("the".data, ([] : W)) ∈ enhanced_selection demoSyn ["the".data] 3 5
      ["cat".data, "the".data] ∧
    (("the".data, ([] : W)).1 ∈ (["the".data] : List W) ∨
      py_truthy (get_word_definition demoSyn ("the".data, ([] : W)).1) = true) :=
  ⟨by decide, (c4_selection_is_uniform_pass demoSyn ["the".data] 3 5
    ["cat".data, "the".data] ("the".data, []) (by decide)).2⟩

/-- C6 (confirmed): with a fixed corpus snapshot and target length, if the
target count is at least the size of the candidate pool, then the rows of
`create_enhanced_words_by_length_csv` are independent of the shuffle
permutation: the break is never reached, every candidate is examined, and
the final sort by word (whose row is a function of the word) produces one
canonical sequence. -/
theorem c6_enhanced_deterministic_when_pool_fits (synsets : W → List W)
    (english_words stop_words : List W) (target_length maxW : Nat) (sh₁ sh₂ : List W)
    (h₁ : sh₁.Perm (get_comprehensive_word_list english_words stop_words target_length))
    (h₂ : sh₂.Perm (get_comprehensive_word_list english_words stop_words target_length))
    (hm : (get_comprehensive_word_list english_words stop_words target_length).length ≤ maxW) :
    create_enhanced_rows synsets stop_words target_length maxW sh₁ =
      create_enhanced_rows synsets stop_words target_length maxW sh₂ := by
  have hl₁ : sh₁.length ≤ maxW := by rw [h₁.length_eq]; exact hm
  have hl₂ : sh₂.length ≤ maxW := by rw [h₂.length_eq]; exact hm
  have e₁ : enhanced_selection synsets stop_words target_length maxW sh₁ =
      sh₁.filterMap (enh_row synsets stop_words target_length) := by
    simpa using selectLoop_eq_filterMap (enh_row synsets stop_words target_length) maxW sh₁ []
      (by simpa using hl₁)
  have e₂ : enhanced_selection synsets stop_words target_length maxW sh₂ =
      sh₂.filterMap (enh_row synsets stop_words target_length) := by
    simpa using selectLoop_eq_filterMap (enh_row synsets stop_words target_length) maxW sh₂ []
      (by simpa using hl₂)
  have hselperm : (enhanced_selection synsets stop_words target_length maxW sh₁).Perm
      (enhanced_selection synsets stop_words target_length maxW sh₂) := by
    rw [e₁, e₂]
    exact (h₁.trans h₂.symm).filterMap _
  have hperm : (create_enhanced_rows synsets stop_words target_length maxW sh₁).Perm
      (create_enhanced_rows synsets stop_words target_length maxW sh₂) :=
    (sortRows_perm _).trans (hselperm.trans (sortRows_perm _).symm)
  exact rows_eq_of_perm_of_sorted (g := fun cw => (get_word_definition synsets cw).getD [])
    (fun p hp => (enh_rows_mem hp).2.2.1) (fun p hp => (enh_rows_mem hp).2.2.1)
    hperm (sortRows_sorted _) (sortRows_sorted _)

/-- Witness for C6 at a concrete pool and two different shuffles. -/
theorem c6_enhanced_deterministic_witness :
    (["the".data, "cat".data] : List W).Perm
      (get_comprehensive_word_list ["cat".data] ["the".data] 3) ∧
    create_enhanced_rows demoSyn ["the".data] 3 5 ["cat".data, "the".data] =
      create_enhanced_rows demoSyn ["the".data] 3 5 ["the".data, "cat".data] :=
  ⟨by decide, c6_enhanced_deterministic_when_pool_fits demoSyn ["cat".data] ["the".data] 3 5
    ["cat".data, "the".data] ["the".data, "cat".data] (by decide) (by decide) (by decide)⟩

/-- C7 (confirmed): in the enhanced output a row's definition is empty
only when its word is a stopword; a non-stopword row always has a truthy
definition (so a non-stopword with an empty sense list never appears);
and every row carries the first sense's definition, defaulted to the
empty string (which can only happen for stopwords).  The outputs of the
non-enhanced generators never contain an empty definition at all. -/
theorem c7_empty_definition_only_for_stopwords (synsets : W → List W) (stop_words : List W)
    (target_length maxW : Nat) :
    (∀ sh p, p ∈ create_enhanced_rows synsets stop_words target_length maxW sh →
      ((p.2 = [] → p.1 ∈ stop_words) ∧
       (p.1 ∉ stop_words → py_truthy (get_word_definition synsets p.1) = true) ∧
       p.2 = (get_word_definition synsets p.1).getD [])) ∧
    (∀ sh p, p ∈ create_word_definition_rows synsets maxW sh → p.2 ≠ []) ∧
    (∀ sh p, p ∈ create_words_by_length_rows synsets target_length maxW sh → p.2 ≠ []) := by
  refine ⟨?_, ?_, ?_⟩
  · intro sh p hp
    obtain ⟨_, _, hd, hor⟩ := enh_rows_mem hp
    refine ⟨?_, ?_, hd⟩
    · intro hnil
      rcases hor with hstop | ht
      · exact hstop
      · exact absurd (hd.symm.trans hnil) (truthy_getD_ne_nil ht)
    · intro hnot
      rcases hor with hstop | ht
      · exact absurd hstop hnot
      · exact ht
  · intro sh p hp
    obtain ⟨_, ht, hd⟩ := cwdc_rows_mem hp
    rw [hd]
    exact truthy_getD_ne_nil ht
  · intro sh p hp
    obtain ⟨_, _, ht, hd⟩ := cwblc_rows_mem hp
    rw [hd]
    exact truthy_getD_ne_nil ht

/-- Witness for C7: the stopword `the` appears with an empty definition,
and the theorem identifies it as a stopword. -/
theorem c7_empty_definition_witness :
    ("the".data, ([] : W)) ∈ create_enhanced_rows demoSyn ["the".data] 3 5
      ["cat".data, "the".data] ∧
    ("the".data : W) ∈ (["the".data] : List W) :=
  ⟨by decide, ((c7_empty_definition_only_for_stopwords demoSyn ["the".data] 3 5).1
    ["cat".data, "the".data] ("the".data, []) (by decide)).1 rfl⟩

/-- C8 (confirmed): every word written into an output row of any
generator is alphabetic, at least 3 characters long, and equal to its own
lower-cased form, because every output word is a `clean_word` result and
lower-casing is idempotent. -/
theorem c8_output_words_alphabetic_lowercase (synsets : W → List W) (stop_words : List W)
    (target_length maxW : Nat) :
    (∀ sh p, p ∈ create_word_definition_rows synsets maxW sh →
      py_isalpha p.1 = true ∧ 3 ≤ p.1.length ∧ py_lower p.1 = p.1) ∧
    (∀ sh p, p ∈ create_words_by_length_rows synsets target_length maxW sh →
      py_isalpha p.1 = true ∧ 3 ≤ p.1.length ∧ py_lower p.1 = p.1) ∧
    (∀ shuffles p, p ∈ create_combined_rows synsets maxW shuffles →
      py_isalpha p.1 = true ∧ 3 ≤ p.1.length ∧ py_lower p.1 = p.1) ∧
    (∀ sh p, p ∈ create_enhanced_rows synsets stop_words target_length maxW sh →
      py_isalpha p.1 = true ∧ 3 ≤ p.1.length ∧ py_lower p.1 = p.1) := by
  refine ⟨?_, ?_, ?_, ?_⟩
  · intro sh p hp
    obtain ⟨⟨w, _, hc⟩, _⟩ := cwdc_rows_mem hp
    exact clean_word_props hc
  · intro sh p hp
    obtain ⟨⟨w, _, hc⟩, _⟩ := cwblc_rows_mem hp
    exact clean_word_props hc
  · intro shuffles p hp
    unfold create_combined_rows at hp
    obtain ⟨s, hs, hps⟩ := List.mem_flatten.1 hp
    obtain ⟨t, _, rfl⟩ := List.mem_map.1 hs
    obtain ⟨⟨w, _, hc⟩, _⟩ := cwblc_rows_mem hps
    exact clean_word_props hc
  · intro sh p hp
    obtain ⟨⟨w, _, hc⟩, _⟩ := enh_rows_mem hp
    exact clean_word_props hc

/-- Witness for C8 at a concrete output row of each generator. -/
theorem c8_output_words_witness :
    ("cat".data, "a feline".data) ∈ create_word_definition_rows demoSyn 5
      ["cat".data, "dog".data] ∧
    py_isalpha "cat".data = true ∧ 3 ≤ "cat".data.length ∧ py_lower "cat".data = "cat".data :=
  ⟨by decide, (c8_output_words_alphabetic_lowercase demoSyn ["the".data] 3 5).1
    ["cat".data, "dog".data] ("cat".data, "a feline".data) (by decide)⟩

/-- C9 (confirmed): in a length-bucketed output every row's word has
exactly the target length — the loop re-checks
`len(cleaned_word) == target_length` after cleaning, so cleaning after
the initial length filter cannot leak other lengths; rows of the combined
file have lengths within 3..8. -/
theorem c9_bucket_words_have_target_length (synsets : W → List W) (stop_words : List W)
    (target_length maxW : Nat) :
    (∀ sh p, p ∈ create_words_by_length_rows synsets target_length maxW sh →
      p.1.length = target_length) ∧
    (∀ sh p, p ∈ create_enhanced_rows synsets stop_words target_length maxW sh →
      p.1.length = target_length) ∧
    (∀ shuffles p, p ∈ create_combined_rows synsets maxW shuffles →
      3 ≤ p.1.length ∧ p.1.length ≤ 8) := by
  refine ⟨?_, ?_, ?_⟩
  · intro sh p hp
    exact (cwblc_rows_mem hp).2.1
  · intro sh p hp
    exact (enh_rows_mem hp).2.1
  · intro shuffles p hp
    unfold create_combined_rows at hp
    obtain ⟨s, hs, hps⟩ := List.mem_flatten.1 hp
    obtain ⟨t, ht, rfl⟩ := List.mem_map.1 hs
    obtain ⟨i, hi, rfl⟩ := List.mem_range'.1 ht
    have hlen := (cwblc_rows_mem hps).2.1
    omega

/-- Witness for C9 at a concrete bucketed row. -/
theorem c9_bucket_words_witness :
    ("cat".data, "a feline".data) ∈ create_words_by_length_rows demoSyn 3 5
      ["cat".data, "dog".data] ∧
    ("cat".data : W).length = 3 :=
  ⟨by decide, (c9_bucket_words_have_target_length demoSyn ["the".data] 3 5).1
    ["cat".data, "dog".data] ("cat".data, "a feline".data) (by decide)⟩

/-- C10 (confirmed): `create_words_by_length_csv` (and the identical
per-length loop of `create_combined_length_csv`) truncates the shuffled
candidate list to `max_words_per_length * 2` entries before any
definition lookup — candidates beyond that bound never influence the
output — and consequently a corpus whose first `max_words_per_length * 2`
shuffled candidates lack definitions yields fewer than
`max_words_per_length` rows even though enough definable words of the
target length exist: with corpus `[xxx, yyy, cat]` (only `cat` defined),
target length 3 and target count 1, the output is empty. -/
theorem c10_lookup_truncated_to_twice_target (synsets : W → List W)
    (target_length maxW : Nat) (l extra : List W) (h : l.length = maxW * 2) :
    create_words_by_length_rows synsets target_length maxW (l ++ extra) =
      create_words_by_length_rows synsets target_length maxW l ∧
    cwblc_filtered ["xxx".data, "yyy".data, "cat".data] 3 =
      ["xxx".data, "yyy".data, "cat".data] ∧
    create_words_by_length_rows demoSyn 3 1 ["xxx".data, "yyy".data, "cat".data] = [] ∧
    1 ≤ ((["xxx".data, "yyy".data, "cat".data] : List W).filter
      (fun w => decide (w.length = 3) && py_truthy (get_word_definition demoSyn w))).length := by
  refine ⟨?_, by decide, by decide, by decide⟩
  unfold create_words_by_length_rows
  rw [← h, List.take_left, List.take_length]

/-- Witness for C10: with `max_words_per_length = 1`, the definable word
`cat` sitting beyond the first two shuffled candidates is never looked
up. -/
theorem c10_lookup_truncated_witness :
    (["aaa".data, "bbb".data] : List W).length = 1 * 2 ∧
    create_words_by_length_rows demoSyn 3 1 (["aaa".data, "bbb".data] ++ ["cat".data]) =
      create_words_by_length_rows demoSyn 3 1 ["aaa".data, "bbb".data] :=
  ⟨by decide, (c10_lookup_truncated_to_twice_target demoSyn 3 1 ["aaa".data, "bbb".data]
    ["cat".data] (by decide)).1⟩
